import Mathlib

/-!
Verification of the `valuemap` repository (a generic synchronized map).

The repository contains two variants of a generic map container:
* `vm.go`   - `ValueMap[K,V]` with an internally owned `sync.RWMutex`;
* `valuemap.go` - `ValueMap[K,V]` whose every method takes an external
  `*sync.RWMutex` parameter.

The underlying Go built-in `map[K]V` (an external collaborator per the
spec) is modelled as an association list with unique keys; the Go-map
primitives `m[k] = v`, `delete(m, k)`, `m[k]` (comma-ok read), `len`,
and range-iteration are modelled by `mapInsert`, `mapErase`, `mapFind?`,
`List.length`, and list traversal.  `reflect.DeepEqual` on values is
modelled by decidable equality on `V`; the Go zero value of `V` is
modelled by `default` from `Inhabited V`.

Locking behaviour is modelled separately: each method body's sequence of
`Lock`/`RLock`/`Unlock`/`RUnlock` calls (with `defer`s firing in LIFO
order at return) is transcribed as a list of lock events, and the
two-thread `Merge`/`Merge` interaction as a small transition system.
-/

universe u v

variable {K : Type u} {V : Type v} [DecidableEq K] [DecidableEq V] [Inhabited V]

/-- The Go built-in map `map[K]V`, modelled as an association list whose
keys are unique in every state reachable through the map primitives. -/
abbrev GoMap (K : Type u) (V : Type v) := List (K × V)

/-- Go map read `v, ok := m[k]`: the value stored at `k`, if present. -/
def mapFind? (t : GoMap K V) (k : K) : Option V :=
  match t with
  | [] => none
  | kv :: rest => if kv.1 = k then some kv.2 else mapFind? rest k

/-- Go map write `m[k] = v`: overwrite the entry for `k` if present,
otherwise add a new entry. -/
def mapInsert (t : GoMap K V) (k : K) (v : V) : GoMap K V :=
  match t with
  | [] => [(k, v)]
  | kv :: rest => if kv.1 = k then (k, v) :: rest else kv :: mapInsert rest k v

/-- Go map delete `delete(m, k)`: remove the entry for `k` if present. -/
def mapErase (t : GoMap K V) (k : K) : GoMap K V :=
  t.filter (fun kv => decide (kv.1 ≠ k))

/-- The Go-map invariant: keys are pairwise distinct. -/
def nodupKeys (t : GoMap K V) : Prop :=
  (t.map Prod.fst).Nodup

instance (t : GoMap K V) : Decidable (nodupKeys t) := by
  unfold nodupKeys; infer_instance

/-- `maps.Copy(dst, src)` from the Go standard library, and equally the
hand-written loop `for k, v := range src { dst[k] = v }`: fold the source
entries into the destination, overwriting on conflict. -/
def mapsCopy (dst src : GoMap K V) : GoMap K V :=
  src.foldl (fun d kv => mapInsert d kv.1 kv.2) dst

namespace VM

/-! The internally-locked variant, `vm.go`.  Only the `data` field of the
Go struct carries state; `mu` and `noCopy` are modelled in the lock-trace
section below. -/

/-- `New` from `vm.go`: fresh empty map. -/
def New : GoMap K V := []

/-- `FromMap` from `vm.go`: copy the caller's map entry by entry into a
fresh map. -/
def FromMap (m : GoMap K V) : GoMap K V :=
  m.foldl (fun cp kv => mapInsert cp kv.1 kv.2) []

/-- `Set` from `vm.go`: `m.data[key] = value`. -/
def Set (m : GoMap K V) (key : K) (value : V) : GoMap K V :=
  mapInsert m key value

/-- `Get` from `vm.go`: `v, ok := m.data[key]; return v, ok` — the zero
value of `V` (`default`) and `false` when the key is absent. -/
def Get (m : GoMap K V) (key : K) : V × Bool :=
  match mapFind? m key with
  | some v => (v, true)
  | none => (default, false)

/-- `Delete` from `vm.go`: `delete(m.data, key)`. -/
def Delete (m : GoMap K V) (key : K) : GoMap K V :=
  mapErase m key

/-- `Clone` from `vm.go`: copy every entry into a fresh map. -/
def Clone (m : GoMap K V) : GoMap K V :=
  m.foldl (fun cp kv => mapInsert cp kv.1 kv.2) []

/-- `Merge` from `vm.go`: `for k, v := range other.data { m.data[k] = v }`. -/
def Merge (m other : GoMap K V) : GoMap K V :=
  other.foldl (fun d kv => mapInsert d kv.1 kv.2) m

/-- `Equal` from `vm.go`: length check, then for each entry of `m` a
lookup in `other` compared with `reflect.DeepEqual`. -/
def Equal (m other : GoMap K V) : Bool :=
  if m.length ≠ other.length then false
  else m.all (fun kv =>
    match mapFind? other kv.1 with
    | some ov => decide (kv.2 = ov)
    | none => false)

/-- `Keys` from `vm.go`: all keys, in iteration order. -/
def Keys (m : GoMap K V) : List K :=
  m.map Prod.fst

/-- `Values` from `vm.go`: all values, in iteration order. -/
def Values (m : GoMap K V) : List V :=
  m.map Prod.snd

/-- `Len` from `vm.go`: `len(m.data)`. -/
def Len (m : GoMap K V) : Nat :=
  m.length

/-- `Clear` from `vm.go`: `m.data = make(map[K]V)`. -/
def Clear (_ : GoMap K V) : GoMap K V := []

/-- `Raw` from `vm.go`: a copy of the internal map. -/
def Raw (m : GoMap K V) : GoMap K V :=
  m.foldl (fun cp kv => mapInsert cp kv.1 kv.2) []

end VM

namespace VG

/-! The externally-locked variant, `valuemap.go`.  The `mu *sync.RWMutex`
parameters do not influence the data result of any method, so the data
semantics is a function of the table alone; locking is modelled in the
lock-trace section. -/

/-- `New` from `valuemap.go`. -/
def New : GoMap K V := []

/-- `FromMap` from `valuemap.go`: `maps.Copy(cp, m)` into a fresh `cp`. -/
def FromMap (m : GoMap K V) : GoMap K V :=
  mapsCopy [] m

/-- `Set` from `valuemap.go`. -/
def Set (m : GoMap K V) (key : K) (value : V) : GoMap K V :=
  mapInsert m key value

/-- `Get` from `valuemap.go`. -/
def Get (m : GoMap K V) (key : K) : V × Bool :=
  match mapFind? m key with
  | some v => (v, true)
  | none => (default, false)

/-- `Delete` from `valuemap.go`. -/
def Delete (m : GoMap K V) (key : K) : GoMap K V :=
  mapErase m key

/-- `Clone` from `valuemap.go`: `maps.Copy(cp, m.data)` into a fresh `cp`. -/
def Clone (m : GoMap K V) : GoMap K V :=
  mapsCopy [] m

/-- `Merge` from `valuemap.go`: `maps.Copy(m.data, other.data)`. -/
def Merge (m other : GoMap K V) : GoMap K V :=
  mapsCopy m other

/-- `Keys` from `valuemap.go`. -/
def Keys (m : GoMap K V) : List K :=
  m.map Prod.fst

/-- `Values` from `valuemap.go`. -/
def Values (m : GoMap K V) : List V :=
  m.map Prod.snd

/-- `Len` from `valuemap.go`. -/
def Len (m : GoMap K V) : Nat :=
  m.length

/-- `Clear` from `valuemap.go`. -/
def Clear (_ : GoMap K V) : GoMap K V := []

/-- `Raw` from `valuemap.go`. -/
def Raw (m : GoMap K V) : GoMap K V :=
  m.foldl (fun cp kv => mapInsert cp kv.1 kv.2) []

end VG

/-! ### Operation sequences (for the Set/Delete/Get history property) -/

/-- A point mutation on the map: a `Set` or a `Delete` call. -/
inductive MapOp (K : Type u) (V : Type v)
  | set (key : K) (value : V)
  | del (key : K)

/-- Run a sequence of `Set`/`Delete` calls of `vm.go` in order. -/
def runOps (m : GoMap K V) (ops : List (MapOp K V)) : GoMap K V :=
  ops.foldl (fun t op =>
    match op with
    | .set k v => VM.Set t k v
    | .del k => VM.Delete t k) m

/-- Specification-side reference function, from the claim's words: the
effect of the most recent operation in `ops` affecting key `k` —
`some (some v)` if it was `Set k v`, `some none` if it was `Delete k`,
`none` if no operation affected `k`.  Operations later in the list are
more recent. -/
def specLastWrite : List (MapOp K V) → K → Option (Option V)
  | [], _ => none
  | op :: rest, k =>
    match specLastWrite rest k with
    | some r => some r
    | none =>
      match op with
      | .set k0 v => if k0 = k then some (some v) else none
      | .del k0 => if k0 = k then some none else none

/-! ### Heap model (for aliasing / independence properties)

Go maps are reference types: a `*ValueMap` mutation writes through a
pointer.  To state that `Clone`/`FromMap` produce *new* unaliased tables
we model a heap as a list of tables addressed by `Nat` pointers.  Each
operation below is the heap-level reading of the corresponding `vm.go`
body: point mutations write only the addressed cell, and `Clone`/`FromMap`
allocate a fresh cell holding the copy their loops build. -/

/-- The heap: tables addressed by allocation order. -/
abbrev Heap (K : Type u) (V : Type v) := List (GoMap K V)

/-- The table a pointer refers to. -/
def tableAt (h : Heap K V) (p : Nat) : GoMap K V :=
  (h[p]?).getD []

/-- Apply a point mutation (`Set`, `Delete`, or `Clear`) to a table. -/
def applyMut (t : GoMap K V) : MapOp K V → GoMap K V
  | .set k v => VM.Set t k v
  | .del k => VM.Delete t k

/-- Apply a point mutation at pointer `p`, as the `vm.go` methods do:
only the addressed map cell changes. -/
def applyAt (h : Heap K V) (p : Nat) (op : MapOp K V) : Heap K V :=
  h.set p (applyMut (tableAt h p) op)

/-- `Clear` at pointer `p` (`m.data = make(map[K]V)` rebinds the cell). -/
def clearAt (h : Heap K V) (p : Nat) : Heap K V :=
  h.set p (VM.Clear (tableAt h p))

/-- `Clone` from `vm.go` at the heap level: the copy loop builds a fresh
table `cp`, and the returned container points at the new allocation. -/
def cloneAt (h : Heap K V) (p : Nat) : Heap K V × Nat :=
  (h ++ [VM.Clone (tableAt h p)], h.length)

/-- `FromMap` from `vm.go` at the heap level: the source map lives at
pointer `s`; the copy loop builds a fresh table in a new allocation. -/
def fromMapAt (h : Heap K V) (s : Nat) : Heap K V × Nat :=
  (h ++ [VM.FromMap (tableAt h s)], h.length)

/-- `Get` from `vm.go` at the heap level: the body only reads `m.data`,
so the heap is returned unchanged alongside the result. -/
def getAt (h : Heap K V) (p : Nat) (k : K) : Heap K V × (V × Bool) :=
  (h, VM.Get (tableAt h p) k)

/-! ### Lock-trace model (for the locking-discipline claims)

Each `vm.go` method body is transcribed as the sequence of lock events it
performs: acquisitions in program order, and the `defer`red releases
firing in LIFO order when the method returns (on every exit path,
including the early `return false` in `Equal` and panics).  Lock `0` is
the receiver's own `mu`; lock `1` is `other.mu` where present. -/

/-- Read (RLock/RUnlock) or write (Lock/Unlock) mode of `sync.RWMutex`. -/
inductive LMode
  | read
  | write
deriving DecidableEq, Repr

/-- A lock acquisition or release event on a numbered mutex. -/
inductive LockEv
  | acq (lock : Nat) (mode : LMode)
  | rel (lock : Nat) (mode : LMode)
deriving DecidableEq, Repr

/-- The public operations of the `vm.go` variant that touch a lock. -/
inductive PubOp
  | set
  | get
  | delete
  | clone
  | merge
  | equal
  | keys
  | values
  | len
  | clear
  | raw
deriving DecidableEq, Repr

/-- The lock events each `vm.go` method performs, transcribed from its
body (`defer`s release in LIFO order at return). -/
def lockTrace : PubOp → List LockEv
  | .set => [.acq 0 .write, .rel 0 .write]
  | .get => [.acq 0 .read, .rel 0 .read]
  | .delete => [.acq 0 .write, .rel 0 .write]
  | .clone => [.acq 0 .read, .rel 0 .read]
  | .merge => [.acq 1 .read, .acq 0 .write, .rel 0 .write, .rel 1 .read]
  | .equal => [.acq 0 .read, .acq 1 .read, .rel 1 .read, .rel 0 .read]
  | .keys => [.acq 0 .read, .rel 0 .read]
  | .values => [.acq 0 .read, .rel 0 .read]
  | .len => [.acq 0 .read, .rel 0 .read]
  | .clear => [.acq 0 .write, .rel 0 .write]
  | .raw => [.acq 0 .read, .rel 0 .read]

/-- The lock mode the specification assigns to each operation on each
mutex (`none` when the spec has the operation not touch that mutex):
write lock for `Set`, `Delete`, `Clear` and the write side of `Merge`;
read lock for `Get`, `Clone`, `Keys`, `Values`, `Len`, `Raw`, the read
side of `Merge`, and both sides of `Equal`. -/
def specLockMode : PubOp → Nat → Option LMode
  | .set, 0 => some .write
  | .delete, 0 => some .write
  | .clear, 0 => some .write
  | .merge, 0 => some .write
  | .merge, 1 => some .read
  | .get, 0 => some .read
  | .clone, 0 => some .read
  | .keys, 0 => some .read
  | .values, 0 => some .read
  | .len, 0 => some .read
  | .raw, 0 => some .read
  | .equal, 0 => some .read
  | .equal, 1 => some .read
  | _, _ => none

/-- The (lock, mode) pairs a trace acquires, in order. -/
def acqList (op : PubOp) : List (Nat × LMode) :=
  (lockTrace op).filterMap fun e =>
    match e with
    | .acq l m => some (l, m)
    | .rel _ _ => none

/-- The (lock, mode) acquisitions the spec assigns to an operation
(locks `0` and `1` are the only ones in play). -/
def specAcqs (op : PubOp) : List (Nat × LMode) :=
  [0, 1].filterMap fun l => (specLockMode op l).map fun m => (l, m)

/-- Run a lock trace over the multiset of currently held locks: an `acq`
records a holding, a `rel` discharges a matching holding (failing if none
is held).  `some []` at the end means every acquisition was released
before return. -/
def runLockTrace (held : List (Nat × LMode)) : List LockEv → Option (List (Nat × LMode))
  | [] => some held
  | .acq l m :: rest => runLockTrace ((l, m) :: held) rest
  | .rel l m :: rest =>
    if (l, m) ∈ held then runLockTrace (held.erase (l, m)) rest else none

/-! ### Two-thread Merge/Merge transition system (deadlock analysis)

Thread 1 runs `a.Merge(b)` and thread 2 runs `b.Merge(a)` on distinct
instances `a`, `b`.  Each thread executes the lock events of the `vm.go`
`Merge` body in order; an event only fires when the `sync.RWMutex`
semantics allows it (a reader needs no writer present; a writer needs no
reader and no writer).  This is a permissive model of `sync.RWMutex` —
the real one additionally blocks new readers while a writer waits, which
only removes schedules, so any deadlock reachable here is reachable in
Go. -/

/-- The two mutex instances involved. -/
inductive LockId
  | A
  | B
deriving DecidableEq, Repr

/-- State of one `sync.RWMutex`: how many readers hold it and whether a
writer holds it. -/
structure RWState where
  readers : Nat
  writer : Bool
deriving DecidableEq, Repr

/-- An event of the two-lock system. -/
inductive SysEv
  | acqR (l : LockId)
  | acqW (l : LockId)
  | relR (l : LockId)
  | relW (l : LockId)
deriving DecidableEq, Repr

/-- Global state: both mutexes plus each thread's remaining events. -/
structure Sys where
  la : RWState
  lb : RWState
  th1 : List SysEv
  th2 : List SysEv
deriving DecidableEq, Repr

/-- The state of the named mutex. -/
def Sys.lockOf (s : Sys) : LockId → RWState
  | .A => s.la
  | .B => s.lb

/-- Replace the state of the named mutex. -/
def Sys.withLock (s : Sys) : LockId → RWState → Sys
  | .A, st => { s with la := st }
  | .B, st => { s with lb := st }

/-- Whether an event may fire in the current state under `sync.RWMutex`
semantics. -/
def enabledEv (s : Sys) : SysEv → Bool
  | .acqR l => !(s.lockOf l).writer
  | .acqW l => (s.lockOf l).readers == 0 && !(s.lockOf l).writer
  | .relR l => (s.lockOf l).readers > 0
  | .relW l => (s.lockOf l).writer

/-- The effect of an event on the lock states. -/
def execEv (s : Sys) : SysEv → Sys
  | .acqR l => s.withLock l { s.lockOf l with readers := (s.lockOf l).readers + 1 }
  | .acqW l => s.withLock l { s.lockOf l with writer := true }
  | .relR l => s.withLock l { s.lockOf l with readers := (s.lockOf l).readers - 1 }
  | .relW l => s.withLock l { s.lockOf l with writer := false }

/-- Thread 1 takes its next step, if any and if enabled. -/
def step1 (s : Sys) : Option Sys :=
  match s.th1 with
  | [] => none
  | e :: rest => if enabledEv s e then some (execEv { s with th1 := rest } e) else none

/-- Thread 2 takes its next step, if any and if enabled. -/
def step2 (s : Sys) : Option Sys :=
  match s.th2 with
  | [] => none
  | e :: rest => if enabledEv s e then some (execEv { s with th2 := rest } e) else none

/-- Interleaving step: either thread moves. -/
def SysStep (s t : Sys) : Prop :=
  step1 s = some t ∨ step2 s = some t

/-- Deadlock: both threads still have events to run and neither can move. -/
def deadlocked (s : Sys) : Bool :=
  !s.th1.isEmpty && !s.th2.isEmpty && (step1 s).isNone && (step2 s).isNone

/-- The lock events of the `vm.go` `Merge` body, receiver `self` merging
from `other`: `other.mu.RLock()`, then `m.mu.Lock()`, with the deferred
unlocks in LIFO order at return. -/
def mergeEvents (self other : LockId) : List SysEv :=
  [.acqR other, .acqW self, .relW self, .relR other]

/-- Initial state: both mutexes free, thread 1 about to run `a.Merge(b)`,
thread 2 about to run `b.Merge(a)`. -/
def mergeInit : Sys :=
  { la := ⟨0, false⟩, lb := ⟨0, false⟩
    th1 := mergeEvents .A .B
    th2 := mergeEvents .B .A }

/-! ### Lemmas about the Go-map primitives -/

theorem mapFind?_insert (t : GoMap K V) (k k' : K) (v : V) :
    mapFind? (mapInsert t k v) k' = if k = k' then some v else mapFind? t k' := by
  induction t with
  | nil => simp [mapInsert, mapFind?]
  | cons kv rest ih =>
    simp only [mapInsert]
    by_cases h1 : kv.1 = k
    · simp only [if_pos h1, mapFind?]
      by_cases h2 : k = k' <;> simp_all
    · simp only [if_neg h1, mapFind?, ih]
      by_cases h2 : kv.1 = k' <;> by_cases h3 : k = k' <;> simp_all

theorem mapFind?_erase (t : GoMap K V) (k k' : K) :
    mapFind? (mapErase t k) k' = if k = k' then none else mapFind? t k' := by
  induction t with
  | nil => simp [mapErase, mapFind?]
  | cons kv rest ih =>
    simp only [mapErase, List.filter_cons] at ih ⊢
    by_cases h1 : kv.1 = k
    · by_cases h2 : k = k' <;> simp_all [mapFind?]
    · by_cases h2 : kv.1 = k' <;> by_cases h3 : k = k' <;> simp_all [mapFind?]

theorem mapFind?_isSome_iff_mem (t : GoMap K V) (k : K) :
    (mapFind? t k).isSome ↔ k ∈ t.map Prod.fst := by
  induction t with
  | nil => simp [mapFind?]
  | cons kv rest ih =>
    simp only [mapFind?, List.map_cons, List.mem_cons]
    by_cases h : kv.1 = k
    · simp [h]
    · simp only [if_neg h, ih]
      constructor
      · exact fun hm => Or.inr hm
      · rintro (he | hm)
        · exact absurd he.symm h
        · exact hm

theorem nodupKeys_cons {kv : K × V} {rest : GoMap K V} :
    nodupKeys (kv :: rest) ↔ kv.1 ∉ rest.map Prod.fst ∧ nodupKeys rest := by
  simp [nodupKeys]

theorem mapFind?_eq_some_of_mem {t : GoMap K V} {k : K} {v : V}
    (hnd : nodupKeys t) (h : (k, v) ∈ t) : mapFind? t k = some v := by
  induction t with
  | nil => simp at h
  | cons kv rest ih =>
    rcases List.mem_cons.mp h with h0 | h0
    · rw [← h0]
      simp [mapFind?]
    · have hk : k ∈ rest.map Prod.fst := List.mem_map_of_mem Prod.fst h0
      have hne : kv.1 ≠ k := fun e => (nodupKeys_cons.mp hnd).1 (e ▸ hk)
      simp [mapFind?, hne, ih (nodupKeys_cons.mp hnd).2 h0]

theorem mem_of_mapFind?_eq_some {t : GoMap K V} {k : K} {v : V}
    (h : mapFind? t k = some v) : (k, v) ∈ t := by
  induction t with
  | nil => simp [mapFind?] at h
  | cons kv rest ih =>
    by_cases h1 : kv.1 = k
    · simp only [mapFind?, if_pos h1, Option.some.injEq] at h
      exact List.mem_cons.mpr (Or.inl (by rw [← h1, ← h]))
    · simp only [mapFind?, if_neg h1] at h
      exact List.mem_cons_of_mem _ (ih h)

theorem mem_keys_insert (t : GoMap K V) (k k' : K) (v : V) :
    k' ∈ (mapInsert t k v).map Prod.fst ↔ (k' = k ∨ k' ∈ t.map Prod.fst) := by
  rw [← mapFind?_isSome_iff_mem, ← mapFind?_isSome_iff_mem, mapFind?_insert]
  rcases eq_or_ne k k' with h | h
  · simp [h]
  · simp [h, Ne.symm h]

theorem nodupKeys_insert (t : GoMap K V) (k : K) (v : V) (hnd : nodupKeys t) :
    nodupKeys (mapInsert t k v) := by
  induction t with
  | nil => simp [mapInsert, nodupKeys]
  | cons kv rest ih =>
    rcases nodupKeys_cons.mp hnd with ⟨hh, ht⟩
    simp only [mapInsert]
    by_cases h1 : kv.1 = k
    · rw [if_pos h1]
      exact nodupKeys_cons.mpr ⟨by rw [← h1]; exact hh, ht⟩
    · rw [if_neg h1]
      refine nodupKeys_cons.mpr ⟨?_, ih ht⟩
      intro hmem
      rcases (mem_keys_insert rest k kv.1 v).mp hmem with h2 | h2
      · exact h1 h2
      · exact hh h2

theorem nodupKeys_erase (t : GoMap K V) (k : K) (hnd : nodupKeys t) :
    nodupKeys (mapErase t k) :=
  List.Nodup.sublist (List.Sublist.map Prod.fst (List.filter_sublist t)) hnd

theorem mapInsert_append_of_not_mem {t : GoMap K V} {k : K} (v : V)
    (h : k ∉ t.map Prod.fst) : mapInsert t k v = t ++ [(k, v)] := by
  induction t with
  | nil => simp [mapInsert]
  | cons kv rest ih =>
    have h1 : kv.1 ≠ k := fun e => h (by simp [e])
    have h2 : k ∉ rest.map Prod.fst := fun hm => h (by simp [hm])
    simp [mapInsert, h1, ih h2]

theorem mapsCopy_eq_append (src : GoMap K V) : ∀ dst : GoMap K V, nodupKeys src →
    (∀ k, k ∈ src.map Prod.fst → k ∉ dst.map Prod.fst) →
    mapsCopy dst src = dst ++ src := by
  induction src with
  | nil => intro dst _ _; simp [mapsCopy]
  | cons kv rest ih =>
    intro dst hnd hdisj
    rcases nodupKeys_cons.mp hnd with ⟨hh, ht⟩
    have hkv : kv.1 ∉ dst.map Prod.fst := hdisj kv.1 (by simp)
    have step : mapsCopy dst (kv :: rest) = mapsCopy (mapInsert dst kv.1 kv.2) rest := rfl
    rw [step, mapInsert_append_of_not_mem kv.2 hkv, ih (dst ++ [(kv.1, kv.2)]) ht ?_]
    · simp
    · intro k hk
      simp only [List.map_append, List.mem_append, List.map_cons, List.map_nil,
        List.mem_cons, List.not_mem_nil, or_false, not_or]
      exact ⟨hdisj k (by simp [hk]), fun e => hh (e ▸ hk)⟩

theorem copyTable_eq {t : GoMap K V} (hnd : nodupKeys t) : mapsCopy [] t = t := by
  simpa using mapsCopy_eq_append t [] hnd (by simp)

theorem clone_eq {t : GoMap K V} (hnd : nodupKeys t) : VM.Clone t = t :=
  copyTable_eq hnd

theorem fromMap_eq {t : GoMap K V} (hnd : nodupKeys t) : VM.FromMap t = t :=
  copyTable_eq hnd

theorem mapFind?_merge_none (other : GoMap K V) : ∀ (m : GoMap K V) (k : K),
    mapFind? other k = none → mapFind? (VM.Merge m other) k = mapFind? m k := by
  induction other with
  | nil => intro m k _; rfl
  | cons kv rest ih =>
    intro m k h
    by_cases h1 : kv.1 = k
    · simp [mapFind?, h1] at h
    · simp only [mapFind?, if_neg h1] at h
      have step : VM.Merge m (kv :: rest) = VM.Merge (mapInsert m kv.1 kv.2) rest := rfl
      rw [step, ih _ k h, mapFind?_insert, if_neg h1]

theorem mapFind?_merge_some (other : GoMap K V) : ∀ (m : GoMap K V) (k : K) (v : V),
    nodupKeys other → mapFind? other k = some v →
    mapFind? (VM.Merge m other) k = some v := by
  induction other with
  | nil => intro m k v _ h; simp [mapFind?] at h
  | cons kv rest ih =>
    intro m k v hnd h
    rcases nodupKeys_cons.mp hnd with ⟨hh, ht⟩
    have step : VM.Merge m (kv :: rest) = VM.Merge (mapInsert m kv.1 kv.2) rest := rfl
    by_cases h1 : kv.1 = k
    · simp only [mapFind?, if_pos h1, Option.some.injEq] at h
      have hrest : mapFind? rest k = none := by
        cases e : mapFind? rest k with
        | none => rfl
        | some w =>
          exact absurd ((mapFind?_isSome_iff_mem rest k).mp (by simp [e])) (h1 ▸ hh)
      rw [step, mapFind?_merge_none rest _ k hrest, mapFind?_insert, if_pos h1, h]
    · simp only [mapFind?, if_neg h1] at h
      rw [step, ih _ k v ht h]

theorem runOps_find? (ops : List (MapOp K V)) : ∀ (m : GoMap K V) (k : K),
    mapFind? (runOps m ops) k =
      match specLastWrite ops k with
      | some r => r
      | none => mapFind? m k := by
  induction ops with
  | nil => intro m k; rfl
  | cons op rest ih =>
    intro m k
    cases op with
    | set k0 v =>
      have step : runOps m (MapOp.set k0 v :: rest) = runOps (VM.Set m k0 v) rest := rfl
      rw [step, ih]
      cases e : specLastWrite rest k with
      | some r => simp [specLastWrite, e]
      | none =>
        simp only [specLastWrite, e, VM.Set, mapFind?_insert]
        by_cases h : k0 = k <;> simp [h]
    | del k0 =>
      have step : runOps m (MapOp.del k0 :: rest) = runOps (VM.Delete m k0) rest := rfl
      rw [step, ih]
      cases e : specLastWrite rest k with
      | some r => simp [specLastWrite, e]
      | none =>
        simp only [specLastWrite, e, VM.Delete, mapFind?_erase]
        by_cases h : k0 = k <;> simp [h]

theorem tableAt_append_lt (h : Heap K V) (t : GoMap K V) (p : Nat) (hp : p < h.length) :
    tableAt (h ++ [t]) p = tableAt h p := by
  unfold tableAt
  rw [List.getElem?_append_left hp]

theorem tableAt_append_len (h : Heap K V) (t : GoMap K V) :
    tableAt (h ++ [t]) h.length = t := by
  unfold tableAt
  rw [List.getElem?_concat_length]
  rfl

theorem tableAt_set_ne (h : Heap K V) (q p : Nat) (t : GoMap K V) (hne : q ≠ p) :
    tableAt (h.set q t) p = tableAt h p := by
  unfold tableAt
  rw [List.getElem?_set_ne hne]

theorem equalEntry_iff (b : GoMap K V) (k : K) (v : V) :
    (match mapFind? b k with
     | some ov => decide (v = ov)
     | none => false) = true ↔ mapFind? b k = some v := by
  cases e : mapFind? b k with
  | none => simp
  | some ov => simp [eq_comm]

theorem equal_true_iff (a b : GoMap K V) (ha : nodupKeys a) (hb : nodupKeys b) :
    VM.Equal a b = true ↔ ∀ k, mapFind? a k = mapFind? b k := by
  constructor
  · intro h k
    unfold VM.Equal at h
    by_cases hlen : a.length ≠ b.length
    · rw [if_pos hlen] at h
      exact absurd h (by simp)
    · rw [if_neg hlen] at h
      have hall : ∀ kv ∈ a, mapFind? b kv.1 = some kv.2 := by
        intro kv hkv
        exact (equalEntry_iff b kv.1 kv.2).mp ((List.all_eq_true.mp h) kv hkv)
      have hsub : (a.map Prod.fst).toFinset ⊆ (b.map Prod.fst).toFinset := by
        intro k' hk'
        rw [List.mem_toFinset, ← mapFind?_isSome_iff_mem] at hk' ⊢
        obtain ⟨v', hv'⟩ := Option.isSome_iff_exists.mp hk'
        have := hall (k', v') (mem_of_mapFind?_eq_some hv')
        simp [this]
      have hcard : (b.map Prod.fst).toFinset.card ≤ (a.map Prod.fst).toFinset.card := by
        rw [List.toFinset_card_of_nodup ha, List.toFinset_card_of_nodup hb]
        push_neg at hlen
        simp [hlen]
      have hset : (a.map Prod.fst).toFinset = (b.map Prod.fst).toFinset :=
        Finset.eq_of_subset_of_card_le hsub hcard
      cases e : mapFind? a k with
      | some v => exact (hall (k, v) (mem_of_mapFind?_eq_some e)).symm
      | none =>
        have hka : k ∉ a.map Prod.fst := by
          rw [← mapFind?_isSome_iff_mem, e]
          simp
        have hkb : k ∉ b.map Prod.fst := fun hm =>
          hka (List.mem_toFinset.mp (hset ▸ List.mem_toFinset.mpr hm))
        cases e2 : mapFind? b k with
        | none => rfl
        | some w =>
          exact absurd ((mapFind?_isSome_iff_mem b k).mp (by simp [e2])) hkb
  · intro h
    unfold VM.Equal
    have hmem : ∀ k, k ∈ a.map Prod.fst ↔ k ∈ b.map Prod.fst := by
      intro k
      rw [← mapFind?_isSome_iff_mem, ← mapFind?_isSome_iff_mem, h k]
    have hset : (a.map Prod.fst).toFinset = (b.map Prod.fst).toFinset := by
      ext k
      simp only [List.mem_toFinset]
      exact hmem k
    have hlen : a.length = b.length := by
      have hc := congrArg Finset.card hset
      rw [List.toFinset_card_of_nodup ha, List.toFinset_card_of_nodup hb] at hc
      simpa using hc
    rw [if_neg (by simp [hlen])]
    apply List.all_eq_true.mpr
    intro kv hkv
    apply (equalEntry_iff b kv.1 kv.2).mpr
    rw [← h kv.1]
    exact mapFind?_eq_some_of_mem ha hkv

/-! ### Claim theorems -/

/-- C1: after any sequence of `Set`/`Delete` calls on a map from `New()`,
`Get k` returns `(v, true)` where `v` is the value of the most recent
`Set k v` in the sequence, and returns the zero value of `V` with
`found = false` when the most recent operation affecting `k` was a
`Delete k` or no operation affected `k`. -/
theorem C1_get_history (ops : List (MapOp K V)) (k : K) :
    VM.Get (runOps VM.New ops) k =
      match specLastWrite ops k with
      | some (some v) => (v, true)
      | some none => ((default : V), false)
      | none => ((default : V), false) := by
  unfold VM.Get
  rw [runOps_find? ops VM.New k]
  cases e : specLastWrite ops k with
  | none => rfl
  | some r => cases r <;> rfl

/-- C2: after `a.Merge(b)`, `a.Get k` returns `b`'s value (as of merge
time) for every key present in `b`, and returns exactly what it returned
before the merge for every key not present in `b` (in particular for
every key only in `a`). -/
theorem C2_merge_get (a b : GoMap K V) (hb : nodupKeys b) :
    (∀ k v, mapFind? b k = some v → VM.Get (VM.Merge a b) k = (v, true))
    ∧ (∀ k, mapFind? b k = none → VM.Get (VM.Merge a b) k = VM.Get a k) := by
  constructor
  · intro k v h
    unfold VM.Get
    rw [mapFind?_merge_some b a k v hb h]
  · intro k h
    unfold VM.Get
    rw [mapFind?_merge_none b a k h]

theorem C2_merge_get_witness :
    VM.Get (VM.Merge [((1 : Nat), (10 : Int))] [(1, 20), (2, 30)]) 1 = (20, true) :=
  (C2_merge_get [((1 : Nat), (10 : Int))] [(1, 20), (2, 30)] (by decide)).1 1 20 (by decide)

/-- C3: `Equal` returns `true` iff the two tables have identical key sets
and deep-equal values at every key; consequently it is reflexive,
symmetric, becomes `false` after overwriting one key of one copy with a
different value, and becomes `false` after removing one key.  Both tables
carry the Go-map unique-key invariant. -/
theorem C3_equal_spec (a b : GoMap K V) (ha : nodupKeys a) (hb : nodupKeys b) :
    (VM.Equal a b = true ↔
      ((∀ k, k ∈ VM.Keys a ↔ k ∈ VM.Keys b)
        ∧ ∀ k v w, mapFind? a k = some v → mapFind? b k = some w → v = w))
    ∧ VM.Equal a a = true
    ∧ VM.Equal a b = VM.Equal b a
    ∧ (∀ (k : K) (v w : V), mapFind? a k = some v → w ≠ v →
        VM.Equal a (mapInsert a k w) = false)
    ∧ (∀ k : K, (mapFind? a k).isSome → VM.Equal a (mapErase a k) = false) := by
  refine ⟨?_, ?_, ?_, ?_, ?_⟩
  · rw [equal_true_iff a b ha hb]
    constructor
    · intro h
      refine ⟨?_, ?_⟩
      · intro k
        unfold VM.Keys
        rw [← mapFind?_isSome_iff_mem, ← mapFind?_isSome_iff_mem, h k]
      · intro k v w hv hw
        rw [h k, hw] at hv
        exact (Option.some.inj hv).symm
    · rintro ⟨hkeys, hvals⟩ k
      cases e : mapFind? a k with
      | some v =>
        have hk : k ∈ VM.Keys b := (hkeys k).mp ((mapFind?_isSome_iff_mem a k).mp (by simp [e]))
        obtain ⟨w, hw⟩ := Option.isSome_iff_exists.mp ((mapFind?_isSome_iff_mem b k).mpr hk)
        rw [hw, hvals k v w e hw]
      | none =>
        cases e2 : mapFind? b k with
        | none => rfl
        | some w =>
          have hk : k ∈ VM.Keys a := (hkeys k).mpr ((mapFind?_isSome_iff_mem b k).mp (by simp [e2]))
          have hs := (mapFind?_isSome_iff_mem a k).mpr hk
          rw [e] at hs
          simp at hs
  · exact (equal_true_iff a a ha ha).mpr (fun _ => rfl)
  · have h1 := equal_true_iff a b ha hb
    have h2 := equal_true_iff b a hb ha
    cases e1 : VM.Equal a b <;> cases e2 : VM.Equal b a
    · rfl
    · have := h1.mpr (fun k => (h2.mp e2 k).symm)
      rw [e1] at this
      exact absurd this (by simp)
    · have := h2.mpr (fun k => (h1.mp e1 k).symm)
      rw [e2] at this
      exact absurd this (by simp)
    · rfl
  · intro k v w hv hwv
    cases e : VM.Equal a (mapInsert a k w)
    · rfl
    · exfalso
      have hpt := (equal_true_iff a (mapInsert a k w) ha (nodupKeys_insert a k w ha)).mp e k
      rw [hv, mapFind?_insert, if_pos rfl] at hpt
      simp only [Option.some.injEq] at hpt
      exact hwv hpt.symm
  · intro k hk
    obtain ⟨v, hv⟩ := Option.isSome_iff_exists.mp hk
    cases e : VM.Equal a (mapErase a k)
    · rfl
    · exfalso
      have hpt := (equal_true_iff a (mapErase a k) ha (nodupKeys_erase a k ha)).mp e k
      rw [hv, mapFind?_erase, if_pos rfl] at hpt
      simp at hpt

/-- C4: `Clone` allocates a fresh table; immediately after cloning the
source and the clone compare `Equal`, and thereafter any `Set`, `Delete`
or `Clear` applied through either pointer leaves the table — and hence
every `Get` and `Len` result — of the other unchanged. -/
theorem C4_clone_independent (h : Heap K V) (p : Nat) (hp : p < h.length)
    (hnd : nodupKeys (tableAt h p)) :
    (cloneAt h p).2 ≠ p
    ∧ VM.Equal (tableAt (cloneAt h p).1 p) (tableAt (cloneAt h p).1 (cloneAt h p).2) = true
    ∧ (∀ op : MapOp K V,
        tableAt (applyAt (cloneAt h p).1 (cloneAt h p).2 op) p = tableAt (cloneAt h p).1 p
        ∧ tableAt (applyAt (cloneAt h p).1 p op) (cloneAt h p).2
            = tableAt (cloneAt h p).1 (cloneAt h p).2)
    ∧ tableAt (clearAt (cloneAt h p).1 (cloneAt h p).2) p = tableAt (cloneAt h p).1 p
    ∧ tableAt (clearAt (cloneAt h p).1 p) (cloneAt h p).2 = tableAt (cloneAt h p).1 (cloneAt h p).2
    ∧ (∀ (op : MapOp K V) (k : K),
        VM.Get (tableAt (applyAt (cloneAt h p).1 (cloneAt h p).2 op) p) k
          = VM.Get (tableAt (cloneAt h p).1 p) k
        ∧ VM.Len (tableAt (applyAt (cloneAt h p).1 (cloneAt h p).2 op) p)
          = VM.Len (tableAt (cloneAt h p).1 p)) := by
  have hq : (cloneAt h p).2 = h.length := rfl
  have hqp : (cloneAt h p).2 ≠ p := by
    rw [hq]
    exact Nat.ne_of_gt hp
  have hpq : p ≠ (cloneAt h p).2 := fun e => hqp e.symm
  have e1 : tableAt (cloneAt h p).1 p = tableAt h p := tableAt_append_lt h _ p hp
  have e2 : tableAt (cloneAt h p).1 (cloneAt h p).2 = tableAt h p :=
    (tableAt_append_len h _).trans (clone_eq hnd)
  have hframe1 : ∀ op : MapOp K V,
      tableAt (applyAt (cloneAt h p).1 (cloneAt h p).2 op) p = tableAt (cloneAt h p).1 p :=
    fun op => tableAt_set_ne _ _ _ _ hqp
  have hframe2 : ∀ op : MapOp K V,
      tableAt (applyAt (cloneAt h p).1 p op) (cloneAt h p).2
        = tableAt (cloneAt h p).1 (cloneAt h p).2 :=
    fun op => tableAt_set_ne _ _ _ _ hpq
  refine ⟨hqp, ?_, fun op => ⟨hframe1 op, hframe2 op⟩, ?_, ?_, ?_⟩
  · rw [e1, e2]
    exact (equal_true_iff _ _ hnd hnd).mpr (fun _ => rfl)
  · exact tableAt_set_ne _ _ _ _ hqp
  · exact tableAt_set_ne _ _ _ _ hpq
  · intro op k
    exact ⟨by rw [hframe1 op], by rw [hframe1 op]⟩

theorem C4_clone_independent_witness :
    VM.Equal (tableAt (cloneAt [[((1 : Nat), (2 : Int))]] 0).1 0)
      (tableAt (cloneAt [[((1 : Nat), (2 : Int))]] 0).1
        (cloneAt [[((1 : Nat), (2 : Int))]] 0).2) = true :=
  (C4_clone_independent [[((1 : Nat), (2 : Int))]] 0 (by decide) (by decide)).2.1

/-- C7: `FromMap` allocates a fresh table holding a shallow element-wise
copy of the source: the copy equals the source's content as of copy time,
the returned pointer is distinct from the source's, any later insertion,
update, or deletion applied to the source leaves the table — and hence
every `Get` and `Len` result — of the returned container unchanged, and
mutating the returned container leaves the source unchanged. -/
theorem C7_fromMap_independent (h : Heap K V) (s : Nat) (hs : s < h.length)
    (hnd : nodupKeys (tableAt h s)) :
    (fromMapAt h s).2 ≠ s
    ∧ tableAt (fromMapAt h s).1 (fromMapAt h s).2 = tableAt h s
    ∧ (∀ op : MapOp K V,
        tableAt (applyAt (fromMapAt h s).1 s op) (fromMapAt h s).2
          = tableAt (fromMapAt h s).1 (fromMapAt h s).2
        ∧ tableAt (applyAt (fromMapAt h s).1 (fromMapAt h s).2 op) s
          = tableAt (fromMapAt h s).1 s)
    ∧ (∀ (op : MapOp K V) (k : K),
        VM.Get (tableAt (applyAt (fromMapAt h s).1 s op) (fromMapAt h s).2) k
          = VM.Get (tableAt (fromMapAt h s).1 (fromMapAt h s).2) k
        ∧ VM.Len (tableAt (applyAt (fromMapAt h s).1 s op) (fromMapAt h s).2)
          = VM.Len (tableAt (fromMapAt h s).1 (fromMapAt h s).2)) := by
  have hq : (fromMapAt h s).2 = h.length := rfl
  have hqs : (fromMapAt h s).2 ≠ s := by
    rw [hq]
    exact Nat.ne_of_gt hs
  have hsq : s ≠ (fromMapAt h s).2 := fun e => hqs e.symm
  have hcopy : tableAt (fromMapAt h s).1 (fromMapAt h s).2 = tableAt h s :=
    (tableAt_append_len h _).trans (fromMap_eq hnd)
  have hframe : ∀ op : MapOp K V,
      tableAt (applyAt (fromMapAt h s).1 s op) (fromMapAt h s).2
        = tableAt (fromMapAt h s).1 (fromMapAt h s).2 :=
    fun op => tableAt_set_ne _ _ _ _ hsq
  refine ⟨hqs, hcopy, fun op => ⟨hframe op, tableAt_set_ne _ _ _ _ hqs⟩, ?_⟩
  intro op k
  exact ⟨by rw [hframe op], by rw [hframe op]⟩

theorem C7_fromMap_independent_witness :
    tableAt (fromMapAt [[((3 : Nat), (7 : Int))]] 0).1
      (fromMapAt [[((3 : Nat), (7 : Int))]] 0).2 = tableAt [[((3 : Nat), (7 : Int))]] 0 :=
  (C7_fromMap_independent [[((3 : Nat), (7 : Int))]] 0 (by decide) (by decide)).2.1

theorem C3_equal_spec_witness :
    VM.Equal [((1 : Nat), (2 : Int))] [(1, 3)] = VM.Equal [(1, 3)] [((1 : Nat), (2 : Int))] :=
  (C3_equal_spec [((1 : Nat), (2 : Int))] [(1, 3)] (by decide) (by decide)).2.2.1

/-- C6: in the internally-owned-guard variant (`vm.go`), every public
operation's lock trace releases, before returning, everything it
acquired, and its acquisitions are exactly the locks the spec assigns —
write lock for `Set`, `Delete`, `Clear` and the write side of `Merge`;
read lock for `Get`, `Clone`, `Keys`, `Values`, `Len`, `Raw`, the read
side of `Merge`, and both sides of `Equal`. -/
theorem C6_lock_discipline (op : PubOp) :
    runLockTrace [] (lockTrace op) = some []
    ∧ (acqList op : Multiset (Nat × LMode)) = (specAcqs op : Multiset (Nat × LMode)) := by
  cases op <;> exact ⟨by decide, by decide⟩

/-- C5 is refuted by the code: `vm.go`'s `Merge` acquires `other`'s read
lock and then the receiver's write lock, so the two-thread execution of
`a.Merge(b)` and `b.Merge(a)` can reach, after each thread takes its
source's read lock, a state in which both threads wait forever — a
deadlock, where the claim (and §5 of the spec, which mandates a fixed
acquisition order) requires termination. -/
theorem C5_merge_deadlock :
    ∃ st : Sys, Relation.ReflTransGen SysStep mergeInit st ∧ deadlocked st = true := by
  refine ⟨{ la := ⟨1, false⟩, lb := ⟨1, false⟩,
            th1 := [.acqW .A, .relW .A, .relR .B],
            th2 := [.acqW .B, .relW .B, .relR .A] }, ?_, by decide⟩
  have h1 : SysStep mergeInit
      { la := ⟨0, false⟩, lb := ⟨1, false⟩,
        th1 := [.acqW .A, .relW .A, .relR .B],
        th2 := [.acqR .A, .acqW .B, .relW .B, .relR .A] } := Or.inl (by decide)
  have h2 : SysStep
      { la := ⟨0, false⟩, lb := ⟨1, false⟩,
        th1 := [.acqW .A, .relW .A, .relR .B],
        th2 := [.acqR .A, .acqW .B, .relW .B, .relR .A] }
      { la := ⟨1, false⟩, lb := ⟨1, false⟩,
        th1 := [.acqW .A, .relW .A, .relR .B],
        th2 := [.acqW .B, .relW .B, .relR .A] } := Or.inr (by decide)
  exact Relation.ReflTransGen.head h1 (Relation.ReflTransGen.single h2)

/-- C8: `Get` on a key absent from the table returns the zero value of
`V` together with `found = false`, and `Get` never mutates: at the heap
level its body only reads, leaving the heap identical. -/
theorem C8_get_absent (m : GoMap K V) (k : K) (h : mapFind? m k = none) :
    VM.Get m k = ((default : V), false)
    ∧ ∀ (hp : Heap K V) (p : Nat) (k' : K), (getAt hp p k').1 = hp := by
  refine ⟨?_, fun _ _ _ => rfl⟩
  unfold VM.Get
  rw [h]

theorem C8_get_absent_witness :
    VM.Get [((1 : Nat), (5 : Int))] 2 = ((default : Int), false) :=
  (C8_get_absent [((1 : Nat), (5 : Int))] 2 (by decide)).1

/-- C9: after `Clear`, `Len` is `0` and `Keys`/`Values` are empty (and
remain so until a further write, reads being pure). -/
theorem C9_clear_empty (m : GoMap K V) :
    VM.Len (VM.Clear m) = 0 ∧ VM.Keys (VM.Clear m) = [] ∧ VM.Values (VM.Clear m) = [] :=
  ⟨rfl, rfl, rfl⟩

/-- C10: the internally-locked variant (`vm.go`) and the externally-locked
variant (`valuemap.go`) compute identical results for every operation they
share, from equal table states and equal arguments, with `Keys`/`Values`
compared as multisets. -/
theorem C10_variants_agree :
    (VM.New : GoMap K V) = VG.New
    ∧ (∀ m : GoMap K V, VM.FromMap m = VG.FromMap m)
    ∧ (∀ (m : GoMap K V) (k : K) (v : V), VM.Set m k v = VG.Set m k v)
    ∧ (∀ (m : GoMap K V) (k : K), VM.Get m k = VG.Get m k)
    ∧ (∀ (m : GoMap K V) (k : K), VM.Delete m k = VG.Delete m k)
    ∧ (∀ m : GoMap K V, VM.Clone m = VG.Clone m)
    ∧ (∀ m other : GoMap K V, VM.Merge m other = VG.Merge m other)
    ∧ (∀ m : GoMap K V, (VM.Keys m : Multiset K) = (VG.Keys m : Multiset K))
    ∧ (∀ m : GoMap K V, (VM.Values m : Multiset V) = (VG.Values m : Multiset V))
    ∧ (∀ m : GoMap K V, VM.Len m = VG.Len m)
    ∧ (∀ m : GoMap K V, VM.Clear m = VG.Clear m)
    ∧ (∀ m : GoMap K V, VM.Raw m = VG.Raw m) :=
  ⟨rfl, fun _ => rfl, fun _ _ _ => rfl, fun _ _ => rfl, fun _ _ => rfl, fun _ => rfl,
    fun _ _ => rfl, fun _ => rfl, fun _ => rfl, fun _ => rfl, fun _ => rfl, fun _ => rfl⟩
